import Mathlib

/-!
Verification of the core simulation/perturbation engine of `src/dynamics.py`
(directed-graph directionality experiments).

A directed multigraph is a vertex count `n` together with an edge list, as
returned by `igraph`'s `get_edgelist()`.  Randomness (numpy's global RNG) is
modelled by passing the sequence of drawn values explicitly: each definition
takes the draws its Python counterpart would obtain from `np.random` as a
function argument.  Python floats are modelled as rationals; the crash of a
Python statement (`ValueError`, `NameError`, exhaustion `raise`) is modelled
as `none` / `Except.error`.
-/

structure Graph where
  n : Nat
  edges : List (Nat × Nat)

/-- Well-formedness as guaranteed by igraph: every endpoint is a vertex id. -/
def Graph.wf (g : Graph) : Prop :=
  ∀ e ∈ g.edges, e.1 < g.n ∧ e.2 < g.n

instance (g : Graph) : Decidable g.wf := by
  unfold Graph.wf; infer_instance

/-- The edge at index `i` of the edge list (`g.es[i]`); defaulted for out of
range indices, which the code never uses. -/
def edgeAt (g : Graph) (i : Nat) : Nat × Nat :=
  g.edges.getD i (0, 0)

/-- Remove the edge at index `i` (`delete_edges([g.es[i]])`). -/
def Graph.deleteEdge (g : Graph) (i : Nat) : Graph :=
  ⟨g.n, g.edges.eraseIdx i⟩

/-! ## Reachability and strong connectivity (igraph's `is_connected(mode='strong')`) -/

/-- Targets of all edges whose source lies in `s`. -/
def succs (edges : List (Nat × Nat)) (s : List Nat) : List Nat :=
  edges.filterMap (fun e => if e.1 ∈ s then some e.2 else none)

/-- One expansion step of the reachable set. -/
def stepR (edges : List (Nat × Nat)) (s : List Nat) : List Nat :=
  (s ++ succs edges s).dedup

/-- `k`-fold expansion of the reachable set. -/
def reachIter (edges : List (Nat × Nat)) : Nat → List Nat → List Nat
  | 0, s => s
  | k + 1, s => stepR edges (reachIter edges k s)

/-- All vertices reachable from `u` (iterating `g.n` times saturates every
path that visits distinct vertices). -/
def reachableFrom (g : Graph) (u : Nat) : List Nat :=
  reachIter g.edges g.n [u]

/-- `is_connected(mode='strong')`: every vertex reachable from every vertex. -/
def stronglyConnected (g : Graph) : Bool :=
  decide (∀ u ∈ List.range g.n, ∀ v ∈ List.range g.n, v ∈ reachableFrom g u)

/-! ## SparsePropagator: `A = csr_matrix((h, (child, par)), shape=(n, n))` -/

/-- Entry `A[i, j]` of the incoming-adjacency operator: one unit per edge
`(j, i)`, duplicates adding up. -/
def countA (edges : List (Nat × Nat)) : Nat → Nat → Nat :=
  fun i j => edges.count (j, i)

/-- The operator construction of `simu_intandfire` lines 43-46: `par, child =
zip(*edges)` raises `ValueError` on an empty edge list (modelled as `none`);
otherwise `A[child, par] += 1` per edge `(par, child)`. -/
def buildA (n : Nat) (edges : List (Nat × Nat)) : Option (Nat → Nat → Nat) :=
  if edges.isEmpty then none else some (countA edges)

/-- Activity flowing into vertex `i`: the sum of `act` over the sources of all
edges pointing at `i`. -/
def inflow (edges : List (Nat × Nat)) (i : Nat) (act : Nat → Nat) : Nat :=
  ((edges.filter (fun e => e.2 == i)).map (fun e => act e.1)).sum

/-! ## WalkSimulator: `randomwalk` and `simu_walk` -/

/-- The walk built by `randomwalk`'s loop: starting at `cur` with `fuel` steps
left at global step index `i`, each step draws the next vertex via the random
oracle `choice` applied to the transition row of the current vertex
(`np.random.choice(range(n), p=trans[walk[i], :])`). -/
def walkFrom (trans : Nat → Nat → ℚ) (choice : Nat → (Nat → ℚ) → Nat) :
    Nat → Nat → Nat → List Nat
  | 0, _, cur => [cur]
  | l + 1, i, cur => cur :: walkFrom trans choice l (i + 1) (choice i (trans cur))

/-- `randomwalk(l, startnode, trans)`: array of `l + 1` vertices, position `0`
holding `startnode`, position `i + 1` the draw of step `i`. -/
def randomwalk (l : Nat) (startnode : Nat) (trans : Nat → Nat → ℚ)
    (choice : Nat → (Nat → ℚ) → Nat) : List Nat :=
  walkFrom trans choice l 0 startnode

/-- `simu_walk(idx, g, walklen, trimsz)` (the unused `idx` is dropped): build
the row-normalized transition matrix, walk, discard the first `trimsz`
entries, and count visits per vertex (`np.unique(..., return_counts=True)`
scattered into a zero vector is exactly per-vertex occurrence count). -/
def simu_walk (g : Graph) (walklen trimsz : Nat) (startnode : Nat)
    (choice : Nat → (Nat → ℚ) → Nat) : Nat → Nat :=
  let adj : Nat → Nat → ℚ := fun i j => (g.edges.count (i, j) : ℚ)
  let rowsum : Nat → ℚ := fun i => ∑ j ∈ Finset.range g.n, adj i j
  let trans : Nat → Nat → ℚ := fun i j => adj i j / rowsum i
  fun v => ((randomwalk walklen startnode trans choice).drop trimsz).count v

lemma walkFrom_length (trans : Nat → Nat → ℚ) (choice : Nat → (Nat → ℚ) → Nat) :
    ∀ (l i cur : Nat), (walkFrom trans choice l i cur).length = l + 1 := by
  intro l
  induction l with
  | zero => intro i cur; rfl
  | succ l ih => intro i cur; simp [walkFrom, ih]

lemma walkFrom_mem_lt (trans : Nat → Nat → ℚ) (choice : Nat → (Nat → ℚ) → Nat)
    {n : Nat} (hch : ∀ i p, choice i p < n) :
    ∀ (l i cur : Nat), cur < n → ∀ x ∈ walkFrom trans choice l i cur, x < n := by
  intro l
  induction l with
  | zero =>
      intro i cur hcur x hx
      simp [walkFrom] at hx
      omega
  | succ l ih =>
      intro i cur hcur x hx
      simp only [walkFrom, List.mem_cons] at hx
      cases hx with
      | inl h => omega
      | inr h => exact ih (i + 1) (choice i (trans cur)) (hch i (trans cur)) x h

/-- Summing per-vertex occurrence counts over all vertices recovers the length
of a list whose entries are all valid vertices. -/
lemma sum_count_eq_length {n : Nat} :
    ∀ (l : List Nat), (∀ x ∈ l, x < n) →
      (∑ v ∈ Finset.range n, l.count v) = l.length := by
  intro l
  induction l with
  | nil => simp
  | cons a t ih =>
      intro h
      have ha : a < n := h a (List.mem_cons_self a t)
      have ht : ∀ x ∈ t, x < n := fun x hx => h x (List.mem_cons_of_mem a hx)
      have hsplit : (∑ v ∈ Finset.range n, (a :: t).count v)
          = (∑ v ∈ Finset.range n, t.count v)
            + (∑ v ∈ Finset.range n, if a = v then 1 else 0) := by
        rw [← Finset.sum_add_distrib]
        refine Finset.sum_congr rfl (fun v _ => ?_)
        by_cases hv : a = v <;> simp [List.count_cons, hv]
      have hone : (∑ v ∈ Finset.range n, if a = v then 1 else 0) = 1 := by
        rw [Finset.sum_congr rfl (fun v _ => by rw [eq_comm])]
        simp [Finset.sum_ite_eq' (Finset.range n) a (fun _ => 1),
          Finset.mem_range.mpr ha]
      rw [hsplit, ih ht, hone, List.length_cons]

/-! ## FiringSimulator: `simu_intandfire` -/

/-- `is_spiking = (acc >= threshold)`. -/
def iafSpike (threshold : Nat) (acc : Nat → Nat) (v : Nat) : Bool :=
  threshold ≤ acc v

/-- `charge_gain = A.dot(is_spiking)`. -/
def iafGain (A : Nat → Nat → Nat) (n threshold : Nat) (acc : Nat → Nat) (v : Nat) : Nat :=
  ∑ j ∈ Finset.range n, A v j * (if threshold ≤ acc j then 1 else 0)

/-- One synchronous tick: `acc = acc - acc*is_spiking + charge_gain`. -/
def iafTick (A : Nat → Nat → Nat) (n threshold : Nat) (acc : Nat → Nat) (v : Nat) : Nat :=
  (acc v - acc v * (if threshold ≤ acc v then 1 else 0)) + iafGain A n threshold acc v

/-- `k` ticks applied to `acc`. -/
def iafIter (A : Nat → Nat → Nat) (n threshold : Nat) : Nat → (Nat → Nat) → Nat → Nat
  | 0, acc => acc
  | k + 1, acc => iafIter A n threshold k (iafTick A n threshold acc)

/-- The burn-in loop (`for i in range(trimsz)`): evolves `acc` and records the
binding the loop leaves in `is_spiking` (`none` when the loop never ran). -/
def iafBurn (A : Nat → Nat → Nat) (n threshold : Nat) :
    Nat → (Nat → Nat) → (Nat → Nat) × Option (Nat → Bool)
  | 0, acc => (acc, none)
  | k + 1, acc =>
      let sp := fun v => iafSpike threshold acc v
      let r := iafBurn A n threshold k (iafTick A n threshold acc)
      (r.1, some (r.2.getD sp))

/-- The measurement loop (`for i in range(tmax-trimsz)`): evolves `acc`,
accumulates `fires += is_spiking`, and records the last `is_spiking`. -/
def iafMeasure (A : Nat → Nat → Nat) (n threshold : Nat) :
    Nat → (Nat → Nat) → (Nat → Nat) × (Nat → Nat) × Option (Nat → Bool)
  | 0, acc => (acc, fun _ => 0, none)
  | k + 1, acc =>
      let sp := fun v => iafSpike threshold acc v
      let r := iafMeasure A n threshold k (iafTick A n threshold acc)
      (r.1, fun v => (if sp v then 1 else 0) + r.2.1 v, some (r.2.2.getD sp))

/-- `simu_intandfire(gin, threshold, tmax, trimsz)` with the random initial
charges passed as `acc0`.  Returns `fires` and `np.sum(is_spiking)`, where
`is_spiking` holds its binding from the last loop iteration that ran; if no
loop iteration ever ran the name is unbound (`NameError`, modelled `none`). -/
def simu_intandfire (g : Graph) (threshold tmax trimsz : Nat) (acc0 : Nat → Nat) :
    Option ((Nat → Nat) × Nat) :=
  match buildA g.n g.edges with
  | none => none
  | some A =>
      let b := iafBurn A g.n threshold trimsz acc0
      let m := iafMeasure A g.n threshold (tmax - trimsz) b.1
      match m.2.2 with
      | some sp => some (m.2.1, ∑ v ∈ Finset.range g.n, if sp v then 1 else 0)
      | none =>
          match b.2 with
          | some sp => some (m.2.1, ∑ v ∈ Finset.range g.n, if sp v then 1 else 0)
          | none => none

/-! ## EpidemicSimulator: `infection_step`, `set_initial_status`, `simu_sis`

Per-vertex uniform draws are passed explicitly: `recDraw v` is the uniform
value compared against `gamma` for infected vertex `v`, and `infDraw v` the
one compared against the infection probability of candidate vertex `v`. -/

/-- Recovery phase: every infected vertex whose draw is below `gamma` returns
to susceptible. -/
def sisRecovery (status : Nat → Nat) (gamma : ℚ) (recDraw : Nat → ℚ) (v : Nat) : Nat :=
  if status v ≠ 0 ∧ recDraw v < gamma then 0 else status v

/-- `kins[v]`: pressure on `v` from post-recovery infected in-neighbors
(`np.sum(adj[status1.astype(bool), :], axis=0)`). -/
def sisKin (adj : Nat → Nat → Nat) (n : Nat) (status : Nat → Nat) (v : Nat) : Nat :=
  ∑ j ∈ Finset.range n, if status j ≠ 0 then adj j v else 0

/-- `probs = 1 - q**kins` with `q = 1 - beta`. -/
def sisProb (beta : ℚ) (k : Nat) : ℚ :=
  1 - (1 - beta) ^ k

/-- `infection_step(adj, status0, beta, gamma)`: recovery, then infection of
the vertices with a nonzero probability (`np.where(probs)`) whose draw falls
below that probability; returns the new status and `status2 - status1`. -/
def infection_step (adj : Nat → Nat → Nat) (n : Nat) (status0 : Nat → Nat)
    (beta gamma : ℚ) (recDraw infDraw : Nat → ℚ) : (Nat → Nat) × (Nat → Int) :=
  let status1 := fun v => sisRecovery status0 gamma recDraw v
  let status2 := fun v =>
    if sisProb beta (sisKin adj n status1 v) ≠ 0 ∧
        infDraw v < sisProb beta (sisKin adj n status1 v)
    then 1 else status1 v
  (status2, fun v => (status2 v : Int) - (status1 v : Int))

/-- `set_initial_status(n, i0)` with the without-replacement choice passed as
`chosen`: zeros with INFECTED at the chosen vertices. -/
def set_initial_status (n : Nat) (chosen : List Nat) : Nat → Nat :=
  fun v => if v ∈ chosen then 1 else 0

/-- Burn-in loop of `simu_sis` (the step result's second component is bound
to `_`, so `newinf` stays unbound here); `t0` is the global tick index used
to look up the draws. -/
def sisBurn (adj : Nat → Nat → Nat) (n : Nat) (beta gamma : ℚ)
    (recDraw infDraw : Nat → Nat → ℚ) : Nat → Nat → (Nat → Nat) → Nat → Nat
  | _, 0, status => status
  | t0, k + 1, status =>
      sisBurn adj n beta gamma recDraw infDraw (t0 + 1) k
        (infection_step adj n status beta gamma (recDraw t0) (infDraw t0)).1

/-- Measurement loop of `simu_sis`: evolves the status, accumulates
`ninfec += newinf`, and records the last `newinf` binding. -/
def sisMeasure (adj : Nat → Nat → Nat) (n : Nat) (beta gamma : ℚ)
    (recDraw infDraw : Nat → Nat → ℚ) :
    Nat → Nat → (Nat → Nat) → (Nat → Nat) × (Nat → Int) × Option (Nat → Int)
  | _, 0, status => (status, fun _ => 0, none)
  | t0, k + 1, status =>
      let stepRes := infection_step adj n status beta gamma (recDraw t0) (infDraw t0)
      let r := sisMeasure adj n beta gamma recDraw infDraw (t0 + 1) k stepRes.1
      (r.1, fun v => stepRes.2 v + r.2.1 v, some (r.2.2.getD stepRes.2))

/-- `simu_sis(gin, beta, gamma, i0, trimsz, tmax)`: burn-in then measurement;
the return expression reads `newinf`, which is unbound (`NameError`, modelled
`none`) when the measurement loop ran zero times. -/
def simu_sis (g : Graph) (beta gamma : ℚ) (chosen : List Nat)
    (recDraw infDraw : Nat → Nat → ℚ) (trimsz tmax : Nat) :
    Option ((Nat → Int) × Int) :=
  let adj : Nat → Nat → Nat := fun i j => g.edges.count (i, j)
  let status0 := set_initial_status g.n chosen
  let sB := sisBurn adj g.n beta gamma recDraw infDraw 0 trimsz status0
  let m := sisMeasure adj g.n beta gamma recDraw infDraw trimsz (tmax - trimsz) sB
  match m.2.2 with
  | none => none
  | some nf => some (m.2.1, ∑ v ∈ Finset.range g.n, nf v)

/-! ## ExperimentDriver: `initial_check` and the pre-flight gate -/

/-- `initial_check(nbatches, batchsz, g)`: fail when the requested removals
exceed 75% of the edges, then when the graph is not strongly connected. -/
def initial_check (nbatches batchsz : Nat) (g : Graph) : Except String Unit :=
  if (0.75 : ℚ) * (g.edges.length : ℚ) < ((nbatches * batchsz : Nat) : ℚ) then
    Except.error "Too may arcs to be removed."
  else if stronglyConnected g then Except.ok ()
  else Except.error "Initial graph is not strongly connected."

/-- The driver `run_experiment`, reduced to the control flow the pre-flight
gate governs: `initial_check` runs right after graph generation and any
failure propagates before the simulators (abstracted as `simulate`) run. -/
def run_experiment {α : Type} (nbatches batchsz : Nat) (g : Graph)
    (simulate : Graph → α) : Except String α :=
  match initial_check nbatches batchsz g with
  | Except.error e => Except.error e
  | Except.ok _ => Except.ok (simulate g)

/-! ## ConnectivityPreservingPruner: `remove_arc_conn` -/

/-- The candidate loop: each attempt deletes one edge index from the original
graph and tests strong connectivity; `ntries` counts attempts 1-based. -/
def removeArcGo (g : Graph) : List Nat → Nat → Option (Graph × Nat)
  | [], _ => none
  | eid :: rest, ntries =>
      let newg := g.deleteEdge eid
      if stronglyConnected newg then some (newg, ntries)
      else removeArcGo g rest (ntries + 1)

/-- `remove_arc_conn(g)` with the shuffled index order passed as `order`:
return the first removal keeping the graph strongly connected together with
the attempt count; the final `raise Exception()` is `none`. -/
def remove_arc_conn (g : Graph) (order : List Nat) : Option (Graph × Nat) :=
  removeArcGo g order 1

/-- `c` lists edge indices of `g` forming a directed cycle that visits every
vertex of `g` exactly once: consecutive edges chain (wrapping around), the
edge sources are pairwise distinct, and every vertex occurs as a source. -/
def isHamCycle (g : Graph) (c : List Nat) : Prop :=
  c ≠ [] ∧ (∀ i ∈ c, i < g.edges.length) ∧
  (∀ p < c.length,
      (edgeAt g (c.getD p 0)).2 = (edgeAt g (c.getD ((p + 1) % c.length) 0)).1) ∧
  (c.map (fun i => (edgeAt g i).1)).Nodup ∧
  (∀ v < g.n, v ∈ c.map (fun i => (edgeAt g i).1))

instance (g : Graph) (c : List Nat) : Decidable (isHamCycle g c) := by
  unfold isHamCycle; infer_instance

lemma countA_cons (a : Nat × Nat) (edges : List (Nat × Nat)) (i j : Nat) :
    countA (a :: edges) i j = countA edges i j + (if a = (j, i) then 1 else 0) := by
  by_cases h : a = (j, i) <;>
    simp [countA, List.count_cons, h]

lemma inflow_cons (a : Nat × Nat) (edges : List (Nat × Nat)) (i : Nat) (act : Nat → Nat) :
    inflow (a :: edges) i act = (if a.2 = i then act a.1 else 0) + inflow edges i act := by
  by_cases h : a.2 = i <;>
    simp [inflow, h]

/-- The dot product of row `i` of the operator with an activity vector sums
the activity of the in-neighborhood of `i` (with edge multiplicity). -/
lemma countA_dot (edges : List (Nat × Nat)) {n : Nat} (i : Nat)
    (hwf : ∀ e ∈ edges, e.1 < n) (act : Nat → Nat) :
    (∑ j ∈ Finset.range n, countA edges i j * act j) = inflow edges i act := by
  induction edges with
  | nil => simp [countA, inflow]
  | cons a t ih =>
      have ha : a.1 < n := hwf a (List.mem_cons_self a t)
      have ht : ∀ e ∈ t, e.1 < n := fun e he => hwf e (List.mem_cons_of_mem a he)
      rw [inflow_cons]
      have hsplit : (∑ j ∈ Finset.range n, countA (a :: t) i j * act j)
          = (∑ j ∈ Finset.range n, countA t i j * act j)
            + (∑ j ∈ Finset.range n, (if a = (j, i) then 1 else 0) * act j) := by
        rw [← Finset.sum_add_distrib]
        refine Finset.sum_congr rfl (fun j _ => ?_)
        rw [countA_cons, Nat.add_mul]
      rw [hsplit, ih ht]
      have hone : (∑ j ∈ Finset.range n, (if a = (j, i) then 1 else 0) * act j)
          = (if a.2 = i then act a.1 else 0) := by
        by_cases h2 : a.2 = i
        · have : ∀ j, (if a = (j, i) then 1 else 0) * act j
              = if j = a.1 then (if a = (j, i) then 1 else 0) * act j else 0 := by
            intro j
            by_cases hj : j = a.1
            · simp [hj]
            · have : a ≠ (j, i) := by
                intro hcontra
                exact hj (by rw [hcontra])
              simp [this]
          rw [Finset.sum_congr rfl (fun j _ => this j)]
          rw [Finset.sum_ite_eq' (Finset.range n) a.1 (fun j => (if a = (j, i) then 1 else 0) * act j)]
          have haeq : a = (a.1, i) := by
            cases a with
            | mk x y =>
                simp only at h2
                simp [h2]
          simp [Finset.mem_range.mpr ha, if_pos haeq, h2]
        · have : ∀ j ∈ Finset.range n, (if a = (j, i) then 1 else 0) * act j = 0 := by
            intro j _
            have : a ≠ (j, i) := by
              intro hc; exact h2 (by rw [hc])
            simp [this]
          rw [Finset.sum_congr rfl this]
          simp [h2]
      omega

/-! ## Integrate-and-fire loop lemmas -/

lemma iafIter_add (A : Nat → Nat → Nat) (n threshold : Nat) :
    ∀ (a b : Nat) (acc : Nat → Nat),
      iafIter A n threshold (a + b) acc
        = iafIter A n threshold b (iafIter A n threshold a acc) := by
  intro a
  induction a with
  | zero => intro b acc; simp [iafIter]
  | succ a ih =>
      intro b acc
      have h : a + 1 + b = (a + b) + 1 := by omega
      rw [h]
      show iafIter A n threshold (a + b) (iafTick A n threshold acc)
          = iafIter A n threshold b (iafIter A n threshold a (iafTick A n threshold acc))
      exact ih b (iafTick A n threshold acc)

lemma iafBurn_acc (A : Nat → Nat → Nat) (n threshold : Nat) :
    ∀ (k : Nat) (acc : Nat → Nat),
      (iafBurn A n threshold k acc).1 = iafIter A n threshold k acc := by
  intro k
  induction k with
  | zero => intro acc; rfl
  | succ k ih => intro acc; simp [iafBurn, iafIter, ih]

lemma iafBurn_last (A : Nat → Nat → Nat) (n threshold : Nat) :
    ∀ (k : Nat) (acc : Nat → Nat),
      (iafBurn A n threshold (k + 1) acc).2
        = some (fun v => iafSpike threshold (iafIter A n threshold k acc) v) := by
  intro k
  induction k with
  | zero => intro acc; rfl
  | succ k ih =>
      intro acc
      show (iafBurn A n threshold (k + 1) (iafTick A n threshold acc)).2.getD _
          = some (fun v => iafSpike threshold (iafIter A n threshold (k + 1) acc) v)
      rw [ih (iafTick A n threshold acc)]
      rfl

lemma iafMeasure_fires (A : Nat → Nat → Nat) (n threshold : Nat) :
    ∀ (k : Nat) (acc : Nat → Nat) (v : Nat),
      (iafMeasure A n threshold k acc).2.1 v
        = ∑ t ∈ Finset.range k,
            if iafSpike threshold (iafIter A n threshold t acc) v then 1 else 0 := by
  intro k
  induction k with
  | zero => intro acc v; simp [iafMeasure]
  | succ k ih =>
      intro acc v
      rw [Finset.sum_range_succ']
      show (if iafSpike threshold acc v then 1 else 0)
            + (iafMeasure A n threshold k (iafTick A n threshold acc)).2.1 v
          = (∑ t ∈ Finset.range k,
              if iafSpike threshold (iafIter A n threshold (t + 1) acc) v then 1 else 0)
            + if iafSpike threshold (iafIter A n threshold 0 acc) v then 1 else 0
      rw [ih]
      exact Nat.add_comm _ _

lemma iafMeasure_last (A : Nat → Nat → Nat) (n threshold : Nat) :
    ∀ (k : Nat) (acc : Nat → Nat),
      (iafMeasure A n threshold (k + 1) acc).2.2
        = some (fun v => iafSpike threshold (iafIter A n threshold k acc) v) := by
  intro k
  induction k with
  | zero => intro acc; rfl
  | succ k ih =>
      intro acc
      show ((iafMeasure A n threshold (k + 1) (iafTick A n threshold acc)).2.2).getD _
          = some (fun v => iafSpike threshold (iafIter A n threshold (k + 1) acc) v)
      rw [ih (iafTick A n threshold acc)]
      rfl

lemma buildA_of_ne (n : Nat) (edges : List (Nat × Nat)) (hne : edges ≠ []) :
    buildA n edges = some (countA edges) := by
  rw [buildA, if_neg]
  simp [List.isEmpty_iff, hne]

/-- C9: in `simu_intandfire`, a vertex below threshold at the start of a tick
never loses charge in that tick, and if moreover none of its in-neighbors is
spiking its charge is exactly unchanged. -/
theorem iafTick_subthreshold (A : Nat → Nat → Nat) (n threshold : Nat)
    (acc : Nat → Nat) (v : Nat) (hsub : acc v < threshold) :
    acc v ≤ iafTick A n threshold acc v ∧
    ((∀ j < n, A v j ≠ 0 → acc j < threshold) →
      iafTick A n threshold acc v = acc v) := by
  have hv : ¬ threshold ≤ acc v := by omega
  constructor
  · rw [iafTick, if_neg hv]
    omega
  · intro hquiet
    have hgain : iafGain A n threshold acc v = 0 := by
      rw [iafGain]
      refine Finset.sum_eq_zero (fun j hj => ?_)
      by_cases hA : A v j = 0
      · simp [hA]
      · have : acc j < threshold := hquiet j (Finset.mem_range.mp hj) hA
        rw [if_neg (by omega)]
        simp
    rw [iafTick, hgain, if_neg hv]
    omega

/-- Closed instance of `iafTick_subthreshold`: a quiet vertex of the 2-cycle
keeps its charge. -/
theorem iafTick_subthreshold_witness :
    ((0 : Nat) < 5) ∧
    ((0 : Nat) ≤ iafTick (countA [(0, 1), (1, 0)]) 2 5 (fun _ => 0) 0 ∧
      ((∀ j < 2, countA [(0, 1), (1, 0)] 0 j ≠ 0 → (fun (_ : Nat) => (0 : Nat)) j < 5) →
        iafTick (countA [(0, 1), (1, 0)]) 2 5 (fun _ => 0) 0 = 0)) :=
  ⟨by decide,
    iafTick_subthreshold (countA [(0, 1), (1, 0)]) 2 5 (fun _ => 0) 0 (by decide)⟩

/-- C5: on a graph with at least one edge and at least one measured tick,
`simu_intandfire` applies its synchronous tick rule (reset plus propagated
gain via the incoming operator) and returns the per-vertex count of measured
ticks in which the vertex spiked, paired with the number of vertices spiking
in the last measured tick. -/
theorem simu_intandfire_spec (g : Graph) (threshold tmax trimsz : Nat)
    (acc0 : Nat → Nat) (hne : g.edges ≠ []) (ht : trimsz < tmax) :
    (∀ acc v, iafTick (countA g.edges) g.n threshold acc v
        = acc v - acc v * (if iafSpike threshold acc v then 1 else 0)
          + ∑ j ∈ Finset.range g.n,
              countA g.edges v j * (if iafSpike threshold acc j then 1 else 0)) ∧
    simu_intandfire g threshold tmax trimsz acc0
      = some (fun v => ∑ t ∈ Finset.range (tmax - trimsz),
            if iafSpike threshold
                (iafIter (countA g.edges) g.n threshold (trimsz + t) acc0) v
            then 1 else 0,
          ∑ v ∈ Finset.range g.n,
            if iafSpike threshold
                (iafIter (countA g.edges) g.n threshold (tmax - 1) acc0) v
            then 1 else 0) := by
  constructor
  · intro acc v
    rw [iafTick, iafGain, iafSpike]
    simp [iafSpike]
  · obtain ⟨j, hj⟩ : ∃ j, tmax - trimsz = j + 1 := ⟨tmax - trimsz - 1, by omega⟩
    have hacc : (iafBurn (countA g.edges) g.n threshold trimsz acc0).1
        = iafIter (countA g.edges) g.n threshold trimsz acc0 :=
      iafBurn_acc _ _ _ _ _
    have hfires : ∀ v,
        (iafMeasure (countA g.edges) g.n threshold (tmax - trimsz)
          (iafIter (countA g.edges) g.n threshold trimsz acc0)).2.1 v
          = ∑ t ∈ Finset.range (tmax - trimsz),
              if iafSpike threshold
                  (iafIter (countA g.edges) g.n threshold (trimsz + t) acc0) v
              then 1 else 0 := by
      intro v
      rw [iafMeasure_fires]
      refine Finset.sum_congr rfl (fun t _ => ?_)
      rw [← iafIter_add]
    have hlast :
        (iafMeasure (countA g.edges) g.n threshold (tmax - trimsz)
          (iafIter (countA g.edges) g.n threshold trimsz acc0)).2.2
          = some (fun v => iafSpike threshold
              (iafIter (countA g.edges) g.n threshold (tmax - 1) acc0) v) := by
      rw [hj, iafMeasure_last]
      have : iafIter (countA g.edges) g.n threshold j
            (iafIter (countA g.edges) g.n threshold trimsz acc0)
          = iafIter (countA g.edges) g.n threshold (tmax - 1) acc0 := by
        rw [← iafIter_add]
        have : trimsz + j = tmax - 1 := by omega
        rw [this]
      rw [this]
    rw [simu_intandfire, buildA_of_ne g.n g.edges hne]
    simp only [hacc, hlast]
    refine congrArg some (Prod.ext ?_ rfl)
    exact funext hfires

/-- Closed instance of `simu_intandfire_spec` on the directed 2-cycle with one
burn-in tick and one measured tick. -/
theorem simu_intandfire_spec_witness :
    (([((0 : Nat), (1 : Nat)), (1, 0)] : List (Nat × Nat)) ≠ []) ∧ (1 < 2) ∧
    ((∀ acc v, iafTick (countA [(0, 1), (1, 0)]) 2 1 acc v
        = acc v - acc v * (if iafSpike 1 acc v then 1 else 0)
          + ∑ j ∈ Finset.range 2,
              countA [(0, 1), (1, 0)] v j * (if iafSpike 1 acc j then 1 else 0)) ∧
      simu_intandfire ⟨2, [(0, 1), (1, 0)]⟩ 1 2 1 (fun v => 1 - v)
        = some (fun v => ∑ t ∈ Finset.range (2 - 1),
              if iafSpike 1
                  (iafIter (countA [(0, 1), (1, 0)]) 2 1 (1 + t) (fun v => 1 - v)) v
              then 1 else 0,
            ∑ v ∈ Finset.range 2,
              if iafSpike 1
                  (iafIter (countA [(0, 1), (1, 0)]) 2 1 (2 - 1) (fun v => 1 - v)) v
              then 1 else 0)) :=
  ⟨by decide, by decide,
    simu_intandfire_spec ⟨2, [(0, 1), (1, 0)]⟩ 1 2 1 (fun v => 1 - v)
      (by decide) (by decide)⟩

/-- C10: with `tmax ≤ trimsz` the measurement loops run zero times:
`simu_sis` then reads the never-bound `newinf` (a `NameError`), while
`simu_intandfire` reads the `is_spiking` binding left by the burn-in loop
(zero fire counts, spike count of the last burn-in tick), itself unbound when
`trimsz = 0`. -/
theorem simu_no_measured_ticks (g : Graph) (threshold tmax trimsz : Nat)
    (acc0 : Nat → Nat) (beta gamma : ℚ) (chosen : List Nat)
    (recDraw infDraw : Nat → Nat → ℚ) (h : tmax ≤ trimsz) :
    simu_sis g beta gamma chosen recDraw infDraw trimsz tmax = none ∧
    (trimsz = 0 → simu_intandfire g threshold tmax trimsz acc0 = none) ∧
    (0 < trimsz → g.edges ≠ [] →
      simu_intandfire g threshold tmax trimsz acc0
        = some (fun _ => 0,
            ∑ v ∈ Finset.range g.n,
              if iafSpike threshold
                  (iafIter (countA g.edges) g.n threshold (trimsz - 1) acc0) v
              then 1 else 0)) := by
  have h0 : tmax - trimsz = 0 := by omega
  refine ⟨?_, ?_, ?_⟩
  · simp [simu_sis, h0, sisMeasure]
  · intro htr
    by_cases hne : g.edges = []
    · simp [simu_intandfire, buildA, hne]
    · have htm : tmax = 0 := by omega
      subst htr htm
      simp [simu_intandfire, buildA_of_ne g.n g.edges hne, iafBurn, iafMeasure]
  · intro htr hne
    obtain ⟨k, hk⟩ : ∃ k, trimsz = k + 1 := ⟨trimsz - 1, by omega⟩
    have hblast : (iafBurn (countA g.edges) g.n threshold trimsz acc0).2
        = some (fun v => iafSpike threshold
            (iafIter (countA g.edges) g.n threshold (trimsz - 1) acc0) v) := by
      rw [hk, iafBurn_last]
      have : k + 1 - 1 = k := by omega
      rw [this]
    simp [simu_intandfire, buildA_of_ne g.n g.edges hne, h0, iafMeasure, hblast]

/-- Closed instance of `simu_no_measured_ticks` at `tmax = 1 < trimsz = 2` on
the self-loop graph. -/
theorem simu_no_measured_ticks_witness :
    ((1 : Nat) ≤ 2) ∧
    (simu_sis ⟨1, [(0, 0)]⟩ 0 0 [] (fun _ _ => 0) (fun _ _ => 0) 2 1 = none ∧
      ((2 : Nat) = 0 → simu_intandfire ⟨1, [(0, 0)]⟩ 1 1 2 (fun _ => 0) = none) ∧
      (0 < (2 : Nat) → ([((0 : Nat), (0 : Nat))] : List (Nat × Nat)) ≠ [] →
        simu_intandfire ⟨1, [(0, 0)]⟩ 1 1 2 (fun _ => 0)
          = some (fun _ => 0,
              ∑ v ∈ Finset.range 1,
                if iafSpike 1
                    (iafIter (countA [(0, 0)]) 1 1 (2 - 1) (fun _ => 0)) v
                then 1 else 0))) :=
  ⟨by decide,
    simu_no_measured_ticks ⟨1, [(0, 0)]⟩ 1 1 2 (fun _ => 0) 0 0 []
      (fun _ _ => 0) (fun _ _ => 0) (by decide)⟩

/-- C7: with `beta = 0` the infection phase of a tick changes nothing (no
susceptible vertex is infected whatever its neighbor counts), and for any
`beta` a vertex with zero post-recovery infected in-pressure has infection
probability exactly `0` and keeps its post-recovery status. -/
theorem infection_step_beta_zero (adj : Nat → Nat → Nat) (n : Nat)
    (status0 : Nat → Nat) (beta gamma : ℚ) (recDraw infDraw : Nat → ℚ)
    (hbeta : beta = 0) :
    (∀ v, (infection_step adj n status0 beta gamma recDraw infDraw).1 v
        = sisRecovery status0 gamma recDraw v) ∧
    (∀ (bet : ℚ) (v : Nat),
        sisKin adj n (fun w => sisRecovery status0 gamma recDraw w) v = 0 →
        sisProb bet (sisKin adj n (fun w => sisRecovery status0 gamma recDraw w) v) = 0 ∧
        (infection_step adj n status0 bet gamma recDraw infDraw).1 v
          = sisRecovery status0 gamma recDraw v) := by
  constructor
  · intro v
    subst hbeta
    simp [infection_step, sisProb]
  · intro bet v hkin
    have hprob : sisProb bet 0 = 0 := by
      simp [sisProb]
    refine ⟨by rw [hkin, hprob], ?_⟩
    simp [infection_step, hkin, hprob]

/-- Closed instance of `infection_step_beta_zero`: two vertices, one
infected, `beta = 0`. -/
theorem infection_step_beta_zero_witness :
    ((0 : ℚ) = 0) ∧
    ((∀ v, (infection_step (fun _ _ => 1) 2 (fun w => if w = 0 then 1 else 0)
          0 (1/2) (fun _ => 1) (fun _ => 0)).1 v
        = sisRecovery (fun w => if w = 0 then 1 else 0) (1/2) (fun _ => 1) v) ∧
      (∀ (bet : ℚ) (v : Nat),
          sisKin (fun _ _ => 1) 2
            (fun w => sisRecovery (fun w => if w = 0 then 1 else 0) (1/2) (fun _ => 1) w) v = 0 →
          sisProb bet (sisKin (fun _ _ => 1) 2
            (fun w => sisRecovery (fun w => if w = 0 then 1 else 0) (1/2) (fun _ => 1) w) v) = 0 ∧
          (infection_step (fun _ _ => 1) 2 (fun w => if w = 0 then 1 else 0)
            bet (1/2) (fun _ => 1) (fun _ => 0)).1 v
            = sisRecovery (fun w => if w = 0 then 1 else 0) (1/2) (fun _ => 1) v)) :=
  ⟨rfl,
    infection_step_beta_zero (fun _ _ => 1) 2 (fun w => if w = 0 then 1 else 0)
      0 (1/2) (fun _ => 1) (fun _ => 0) rfl⟩

/-- C8: statuses stay in `{0, 1}`: the initial status is a 0/1 vector, and a
tick of `infection_step` maps a 0/1 status vector to a 0/1 status vector, so
the total infected count is at most `n`. -/
theorem sis_status_binary (adj : Nat → Nat → Nat) (n : Nat) (status0 : Nat → Nat)
    (beta gamma : ℚ) (recDraw infDraw : Nat → ℚ) (chosen : List Nat)
    (h01 : ∀ v, status0 v = 0 ∨ status0 v = 1) :
    (∀ v, set_initial_status n chosen v = 0 ∨ set_initial_status n chosen v = 1) ∧
    (∀ v, (infection_step adj n status0 beta gamma recDraw infDraw).1 v = 0 ∨
          (infection_step adj n status0 beta gamma recDraw infDraw).1 v = 1) ∧
    (∑ v ∈ Finset.range n, (infection_step adj n status0 beta gamma recDraw infDraw).1 v)
      ≤ n := by
  have hstep : ∀ v, (infection_step adj n status0 beta gamma recDraw infDraw).1 v = 0 ∨
      (infection_step adj n status0 beta gamma recDraw infDraw).1 v = 1 := by
    intro v
    have h1 : sisRecovery status0 gamma recDraw v = 0 ∨
        sisRecovery status0 gamma recDraw v = 1 := by
      rw [sisRecovery]
      split
      · left; rfl
      · exact h01 v
    rw [infection_step]
    simp only
    split
    · right; rfl
    · exact h1
  refine ⟨?_, hstep, ?_⟩
  · intro v
    rw [set_initial_status]
    split
    · right; rfl
    · left; rfl
  · calc (∑ v ∈ Finset.range n,
        (infection_step adj n status0 beta gamma recDraw infDraw).1 v)
        ≤ ∑ _v ∈ Finset.range n, 1 := by
          refine Finset.sum_le_sum (fun v _ => ?_)
          rcases hstep v with h | h <;> omega
      _ = n := by simp

/-- Closed instance of `sis_status_binary` on a 2-vertex graph with vertex 0
infected. -/
theorem sis_status_binary_witness :
    (∀ v, (fun w => if w = 0 then 1 else 0) v = 0 ∨
      (fun w : Nat => if w = 0 then 1 else 0) v = 1) ∧
    ((∀ v, set_initial_status 2 [0] v = 0 ∨ set_initial_status 2 [0] v = 1) ∧
      (∀ v, (infection_step (fun _ _ => 1) 2 (fun w => if w = 0 then 1 else 0)
            (1/2) (1/2) (fun _ => 0) (fun _ => 0)).1 v = 0 ∨
        (infection_step (fun _ _ => 1) 2 (fun w => if w = 0 then 1 else 0)
            (1/2) (1/2) (fun _ => 0) (fun _ => 0)).1 v = 1) ∧
      (∑ v ∈ Finset.range 2,
          (infection_step (fun _ _ => 1) 2 (fun w => if w = 0 then 1 else 0)
            (1/2) (1/2) (fun _ => 0) (fun _ => 0)).1 v) ≤ 2) :=
  ⟨fun v => by by_cases h : v = 0 <;> simp [h],
    sis_status_binary (fun _ _ => 1) 2 (fun w => if w = 0 then 1 else 0)
      (1/2) (1/2) (fun _ => 0) (fun _ => 0) [0]
      (fun v => by by_cases h : v = 0 <;> simp [h])⟩

/-- C6 (gate): when the requested removal volume exceeds 75% of the edges or
the graph is not strongly connected, the driver aborts with a configuration
error before invoking any simulator; in particular `nbatches = 10`,
`batchsz = 1` against any 5-edge graph always aborts. -/
theorem run_experiment_precheck {α : Type} (nbatches batchsz : Nat) (g : Graph)
    (simulate : Graph → α)
    (h : (0.75 : ℚ) * (g.edges.length : ℚ) < ((nbatches * batchsz : Nat) : ℚ) ∨
         stronglyConnected g = false) :
    (∃ e, run_experiment nbatches batchsz g simulate = Except.error e) ∧
    (∀ (g5 : Graph) (sim5 : Graph → α), g5.edges.length = 5 →
      run_experiment 10 1 g5 sim5 = Except.error "Too may arcs to be removed.") := by
  constructor
  · rcases h with h | h
    · refine ⟨"Too may arcs to be removed.", ?_⟩
      simp only [run_experiment, initial_check]
      rw [if_pos h]
    · by_cases h2 : (0.75 : ℚ) * (g.edges.length : ℚ) < ((nbatches * batchsz : Nat) : ℚ)
      · refine ⟨"Too may arcs to be removed.", ?_⟩
        simp only [run_experiment, initial_check]
        rw [if_pos h2]
      · refine ⟨"Initial graph is not strongly connected.", ?_⟩
        simp only [run_experiment, initial_check]
        rw [if_neg h2, h]
        simp
  · intro g5 sim5 h5
    have hlt : (0.75 : ℚ) * (g5.edges.length : ℚ) < ((10 * 1 : Nat) : ℚ) := by
      rw [h5]
      norm_num
    simp only [run_experiment, initial_check]
    rw [if_pos hlt]

/-- Closed instance of `run_experiment_precheck`: one batch of one removal
against an edgeless graph trips the 75% bound. -/
theorem run_experiment_precheck_witness :
    ((0.75 : ℚ) * ((([] : List (Nat × Nat)).length : Nat) : ℚ)
        < (((1 * 1 : Nat) : Nat) : ℚ) ∨
      stronglyConnected ⟨1, []⟩ = false) ∧
    ((∃ e, run_experiment 1 1 ⟨1, []⟩ (fun _ => (0 : Nat)) = Except.error e) ∧
      (∀ (g5 : Graph) (sim5 : Graph → Nat), g5.edges.length = 5 →
        run_experiment 10 1 g5 sim5 = Except.error "Too may arcs to be removed.")) :=
  ⟨Or.inl (by norm_num),
    run_experiment_precheck 1 1 ⟨1, []⟩ (fun _ => (0 : Nat))
      (Or.inl (by norm_num))⟩

/-- C2 counterexample: on an empty edge list the operator construction fails
(`zip(*edges)` raises `ValueError`) instead of returning the zero operator. -/
theorem buildA_empty_cex : buildA 1 [] = none := rfl

/-- C2 (amended): on any nonempty edge list the construction succeeds with
`A[i, j]` counting the edges from `j` to `i`, and row `i` dotted with an
activity vector sums the activity of the in-neighbors of `i`; the empty edge
list instead raises. -/
theorem buildA_spec (n : Nat) (edges : List (Nat × Nat))
    (hne : edges ≠ []) (hwf : ∀ e ∈ edges, e.1 < n) :
    ∃ A, buildA n edges = some A ∧
      (∀ i j, A i j = edges.count (j, i)) ∧
      (∀ (i : Nat) (act : Nat → Nat),
        (∑ j ∈ Finset.range n, A i j * act j) = inflow edges i act) := by
  refine ⟨countA edges, buildA_of_ne n edges hne, fun i j => rfl, fun i act => ?_⟩
  exact countA_dot edges i hwf act

/-- Closed instance of `buildA_spec` on a single edge `0 → 1`. -/
theorem buildA_spec_witness :
    (([((0 : Nat), (1 : Nat))] : List (Nat × Nat)) ≠ []) ∧
    (∃ A, buildA 2 [(0, 1)] = some A ∧
      (∀ i j, A i j = ([((0 : Nat), (1 : Nat))] : List (Nat × Nat)).count (j, i)) ∧
      (∀ (i : Nat) (act : Nat → Nat),
        (∑ j ∈ Finset.range 2, A i j * act j) = inflow [(0, 1)] i act)) :=
  ⟨by decide, buildA_spec 2 [(0, 1)] (by decide) (by decide)⟩

/-- C1 counterexample: on the self-loop graph (every vertex has positive
degree) with `walklen = 1` and `trimsz = 0`, the visit counts sum to `2`, not
`walklen - trimsz = 1`: the walk array has `walklen + 1` entries. -/
theorem simu_walk_sum_cex :
    (∑ v ∈ Finset.range 1, simu_walk ⟨1, [(0, 0)]⟩ 1 0 0 (fun _ _ => 0) v) ≠ 1 - 0 := by
  decide

/-- C1 (amended): for positive out-degrees, `trimsz ≤ walklen`, a valid start
vertex and in-range draws, the visit counts returned by `simu_walk` sum to
`walklen + 1 - trimsz` (the walk holds `walklen + 1` vertices). -/
theorem simu_walk_sum (g : Graph) (walklen trimsz startnode : Nat)
    (choice : Nat → (Nat → ℚ) → Nat)
    (hdeg : ∀ v < g.n, 0 < (g.edges.filter (fun e => e.1 == v)).length)
    (htrim : trimsz ≤ walklen) (hstart : startnode < g.n)
    (hch : ∀ i p, choice i p < g.n) :
    (∑ v ∈ Finset.range g.n, simu_walk g walklen trimsz startnode choice v)
      = walklen + 1 - trimsz := by
  simp only [simu_walk]
  have hmem : ∀ (trans : Nat → Nat → ℚ),
      ∀ x ∈ (randomwalk walklen startnode trans choice).drop trimsz, x < g.n := by
    intro trans x hx
    exact walkFrom_mem_lt trans choice hch walklen 0 startnode hstart x
      (List.drop_subset _ _ hx)
  rw [sum_count_eq_length _ (hmem _), List.length_drop, randomwalk, walkFrom_length]

/-- Closed instance of `simu_walk_sum` on the directed 2-cycle, two steps and
one trimmed entry. -/
theorem simu_walk_sum_witness :
    (∀ v < (2 : Nat),
      0 < (([((0 : Nat), (1 : Nat)), (1, 0)] : List (Nat × Nat)).filter
            (fun e => e.1 == v)).length) ∧
    ((1 : Nat) ≤ 2) ∧ ((0 : Nat) < 2) ∧
    (∀ (i : Nat) (p : Nat → ℚ), (fun (_ : Nat) (_ : Nat → ℚ) => 1) i p < 2) ∧
    (∑ v ∈ Finset.range 2, simu_walk ⟨2, [(0, 1), (1, 0)]⟩ 2 1 0 (fun _ _ => 1) v)
      = 2 + 1 - 1 :=
  ⟨by decide, by decide, by decide, fun _ _ => one_lt_two,
    simu_walk_sum ⟨2, [(0, 1), (1, 0)]⟩ 2 1 0 (fun _ _ => 1)
      (by decide) (by decide) (by decide) (fun _ _ => one_lt_two)⟩

/-! ## Reachability lemmas -/

lemma mem_stepR_left {E : List (Nat × Nat)} {s : List Nat} {v : Nat}
    (h : v ∈ s) : v ∈ stepR E s := by
  rw [stepR, List.mem_dedup]
  exact List.mem_append_left _ h

lemma mem_stepR_edge {E : List (Nat × Nat)} {s : List Nat} {u v : Nat}
    (hu : u ∈ s) (he : (u, v) ∈ E) : v ∈ stepR E s := by
  rw [stepR, List.mem_dedup]
  refine List.mem_append_right _ ?_
  rw [succs, List.mem_filterMap]
  exact ⟨(u, v), he, by rw [if_pos hu]⟩

lemma reachIter_mono (E : List (Nat × Nat)) (s : List Nat) (x : Nat) :
    ∀ {k k' : Nat}, k ≤ k' → x ∈ reachIter E k s → x ∈ reachIter E k' s := by
  intro k k' h hx
  induction k' with
  | zero =>
      have hk : k = 0 := by omega
      subst hk
      exact hx
  | succ k' ih =>
      by_cases hk : k = k' + 1
      · subst hk
        exact hx
      · exact mem_stepR_left (ih (by omega))

lemma reachIter_edge (E : List (Nat × Nat)) {s : List Nat} {k u v : Nat}
    (hu : u ∈ reachIter E k s) (he : (u, v) ∈ E) :
    v ∈ reachIter E (k + 1) s :=
  mem_stepR_edge hu he

lemma reachIter_no_out (E : List (Nat × Nat)) (u : Nat)
    (hu : ∀ e ∈ E, e.1 ≠ u) : ∀ k, reachIter E k [u] = [u] := by
  have hstep : stepR E [u] = [u] := by
    have hsuc : succs E [u] = [] := by
      rw [succs, List.filterMap_eq_nil]
      intro e he
      rw [if_neg]
      simp [hu e he]
    rw [stepR, hsuc]
    simp
  intro k
  induction k with
  | zero => rfl
  | succ k ih =>
      show stepR E (reachIter E k [u]) = [u]
      rw [ih, hstep]

/-! ## Hamiltonian-cycle lemmas -/

lemma hamCycle_pos {g : Graph} {c : List Nat} (hc : isHamCycle g c) :
    0 < c.length :=
  List.length_pos.mpr hc.1

lemma getD_mem_of_lt {c : List Nat} {p : Nat} (hp : p < c.length) :
    c.getD p 0 ∈ c := by
  rw [List.getD_eq_getElem _ _ hp]
  exact List.getElem_mem hp

lemma hamCycle_edge_mem {g : Graph} {i : Nat} (hi : i < g.edges.length) :
    edgeAt g i ∈ g.edges := by
  rw [edgeAt, List.getD_eq_getElem _ _ hi]
  exact List.getElem_mem hi

lemma hamCycle_length_le {g : Graph} {c : List Nat}
    (hwf : g.wf) (hc : isHamCycle g c) : c.length ≤ g.n := by
  have hnodup : (c.map (fun i => (edgeAt g i).1)).Nodup := hc.2.2.2.1
  have hsub : (c.map (fun i => (edgeAt g i).1)).toFinset ⊆ Finset.range g.n := by
    intro x hx
    rw [List.mem_toFinset, List.mem_map] at hx
    obtain ⟨i, hi, hfi⟩ := hx
    have hie : edgeAt g i ∈ g.edges := hamCycle_edge_mem (hc.2.1 i hi)
    rw [Finset.mem_range, ← hfi]
    exact (hwf _ hie).1
  have := Finset.card_le_card hsub
  rw [Finset.card_range, List.toFinset_card_of_nodup hnodup, List.length_map] at this
  exact this

lemma hamCycle_n_le {g : Graph} {c : List Nat} (hc : isHamCycle g c) :
    g.n ≤ c.length := by
  have hsub : Finset.range g.n ⊆ (c.map (fun i => (edgeAt g i).1)).toFinset := by
    intro v hv
    rw [List.mem_toFinset]
    exact hc.2.2.2.2 v (Finset.mem_range.mp hv)
  have h1 := Finset.card_le_card hsub
  have h2 := List.toFinset_card_le (c.map (fun i => (edgeAt g i).1))
  rw [Finset.card_range] at h1
  rw [List.length_map] at h2
  omega

lemma mem_srcs_pos {g : Graph} {c : List Nat} {u : Nat}
    (hu : u ∈ c.map (fun i => (edgeAt g i).1)) :
    ∃ j, j < c.length ∧ (edgeAt g (c.getD j 0)).1 = u := by
  obtain ⟨i, hi, hfi⟩ := List.mem_map.mp hu
  obtain ⟨⟨j, hj⟩, hget⟩ := List.mem_iff_get.mp hi
  refine ⟨j, hj, ?_⟩
  have hcj : c.getD j 0 = i := by
    rw [List.getD_eq_getElem _ _ hj]
    exact hget
  rw [hcj, hfi]

lemma hamCycle_reach (g : Graph) (c : List Nat) (hc : isHamCycle g c)
    (E2 : List (Nat × Nat)) (hsur : ∀ i ∈ c, edgeAt g i ∈ E2) :
    ∀ (t j : Nat), j < c.length →
      (edgeAt g (c.getD ((j + t) % c.length) 0)).1
        ∈ reachIter E2 t [(edgeAt g (c.getD j 0)).1] := by
  intro t
  induction t with
  | zero =>
      intro j hj
      rw [Nat.add_zero, Nat.mod_eq_of_lt hj]
      exact List.mem_singleton_self _
  | succ t ih =>
      intro j hj
      have hm : 0 < c.length := hamCycle_pos hc
      have hplt : (j + t) % c.length < c.length := Nat.mod_lt _ hm
      have hedge : ((edgeAt g (c.getD ((j + t) % c.length) 0)).1,
          (edgeAt g (c.getD ((j + t) % c.length) 0)).2) ∈ E2 := by
        rw [Prod.mk.eta]
        exact hsur _ (getD_mem_of_lt hplt)
      have hstep := reachIter_edge E2 (ih j hj) hedge
      have hchain := hc.2.2.1 ((j + t) % c.length) hplt
      rw [hchain] at hstep
      have hmod : ((j + t) % c.length + 1) % c.length = (j + (t + 1)) % c.length := by
        rw [Nat.mod_add_mod, ← Nat.add_assoc]
      rw [hmod] at hstep
      exact hstep

/-- A spanning cycle of `g` whose edges all survive in `g2` (same vertex set)
forces `g2` to be strongly connected. -/
lemma hamCycle_sc (g : Graph) (c : List Nat) (g2 : Graph)
    (hwf : g.wf) (hc : isHamCycle g c) (hn : g2.n = g.n)
    (hsur : ∀ i ∈ c, edgeAt g i ∈ g2.edges) :
    stronglyConnected g2 = true := by
  rw [stronglyConnected, decide_eq_true_eq]
  intro u hu v hv
  rw [List.mem_range, hn] at hu hv
  obtain ⟨j, hj, hju⟩ := mem_srcs_pos (hc.2.2.2.2 u hu)
  obtain ⟨p, hp, hpv⟩ := mem_srcs_pos (hc.2.2.2.2 v hv)
  have hm : 0 < c.length := hamCycle_pos hc
  have ht : (p + c.length - j) % c.length < c.length := Nat.mod_lt _ hm
  have hwalk := hamCycle_reach g c hc g2.edges hsur ((p + c.length - j) % c.length) j hj
  have hidx : (j + (p + c.length - j) % c.length) % c.length = p := by
    rw [Nat.add_mod_mod]
    have h2 : j + (p + c.length - j) = p + c.length := by omega
    rw [h2, Nat.add_mod_right]
    exact Nat.mod_eq_of_lt hp
  rw [hidx, hju, hpv] at hwalk
  rw [reachableFrom]
  have hle : (p + c.length - j) % c.length ≤ g2.n := by
    have := hamCycle_length_le hwf hc
    omega
  exact reachIter_mono g2.edges _ v hle hwalk

/-- The edges of a cycle avoiding index `e` all survive the deletion of `e`. -/
lemma hamCycle_survives (g : Graph) (c : List Nat) (hc : isHamCycle g c)
    (e : Nat) (he : e ∉ c) : ∀ i ∈ c, edgeAt g i ∈ (g.deleteEdge e).edges := by
  intro i hi
  have hlt : i < g.edges.length := hc.2.1 i hi
  have hne : i ≠ e := fun h => he (h ▸ hi)
  show edgeAt g i ∈ g.edges.eraseIdx e
  rw [edgeAt, List.getD_eq_getElem _ _ hlt]
  exact List.mem_eraseIdx_iff_getElem.mpr ⟨i, hlt, hne, rfl⟩

/-- With two edge-disjoint spanning cycles, deleting any single edge keeps
the graph strongly connected. -/
lemma sc_deleteEdge (g : Graph) (c1 c2 : List Nat) (hwf : g.wf)
    (h1 : isHamCycle g c1) (h2 : isHamCycle g c2)
    (hdisj : ∀ i ∈ c1, i ∉ c2) (e : Nat) :
    stronglyConnected (g.deleteEdge e) = true := by
  by_cases hec : e ∈ c1
  · exact hamCycle_sc g c2 (g.deleteEdge e) hwf h2 rfl
      (hamCycle_survives g c2 h2 e (hdisj e hec))
  · exact hamCycle_sc g c1 (g.deleteEdge e) hwf h1 rfl
      (hamCycle_survives g c1 h1 e hec)

/-- C3: on a strongly connected graph carrying two edge-disjoint cycles that
each visit every vertex, `remove_arc_conn` returns (for any shuffle order) a
still strongly connected graph with exactly one fewer edge, and the attempt
count `k` is the 1-based position of the first shuffled candidate whose
removal preserves strong connectivity, with `1 ≤ k ≤ ecount`. -/
theorem remove_arc_conn_spec (g : Graph) (c1 c2 order : List Nat)
    (hwf : g.wf) (hsc : stronglyConnected g = true)
    (h1 : isHamCycle g c1) (h2 : isHamCycle g c2)
    (hdisj : ∀ i ∈ c1, i ∉ c2)
    (horder : order.Perm (List.range g.edges.length)) :
    ∃ g2 k, remove_arc_conn g order = some (g2, k) ∧
      stronglyConnected g2 = true ∧
      g2.edges.length + 1 = g.edges.length ∧
      1 ≤ k ∧ k ≤ g.edges.length ∧
      stronglyConnected (g.deleteEdge (order.getD (k - 1) 0)) = true ∧
      ∀ jj, jj + 1 < k → stronglyConnected (g.deleteEdge (order.getD jj 0)) = false := by
  have hpos : 0 < g.edges.length := by
    obtain ⟨i, hi⟩ := List.exists_mem_of_ne_nil c1 h1.1
    have := h1.2.1 i hi
    omega
  have hlen : order.length = g.edges.length := by
    rw [horder.length_eq, List.length_range]
  obtain ⟨o0, rest, horder_eq⟩ : ∃ o0 rest, order = o0 :: rest := by
    cases order with
    | nil => simp at hlen; omega
    | cons a l => exact ⟨a, l, rfl⟩
  subst horder_eq
  have hscdel : stronglyConnected (g.deleteEdge o0) = true :=
    sc_deleteEdge g c1 c2 hwf h1 h2 hdisj o0
  have ho0 : o0 < g.edges.length := by
    have : o0 ∈ List.range g.edges.length :=
      horder.subset (List.mem_cons_self o0 rest)
    simpa using this
  refine ⟨g.deleteEdge o0, 1, ?_, hscdel, ?_, le_refl 1, hpos, hscdel, ?_⟩
  · show removeArcGo g (o0 :: rest) 1 = some (g.deleteEdge o0, 1)
    rw [removeArcGo]
    simp only [hscdel]
    rfl
  · show (g.edges.eraseIdx o0).length + 1 = g.edges.length
    rw [List.length_eraseIdx_of_lt ho0]
    omega
  · intro jj hjj
    omega

/-- Closed instance of `remove_arc_conn_spec`: two parallel 2-cycles on two
vertices, shuffled order `[2, 0, 3, 1]`. -/
theorem remove_arc_conn_spec_witness :
    (Graph.wf ⟨2, [(0, 1), (1, 0), (0, 1), (1, 0)]⟩) ∧
    (stronglyConnected ⟨2, [(0, 1), (1, 0), (0, 1), (1, 0)]⟩ = true) ∧
    isHamCycle ⟨2, [(0, 1), (1, 0), (0, 1), (1, 0)]⟩ [0, 1] ∧
    isHamCycle ⟨2, [(0, 1), (1, 0), (0, 1), (1, 0)]⟩ [2, 3] ∧
    (∀ i ∈ [0, 1], i ∉ ([2, 3] : List Nat)) ∧
    (([2, 0, 3, 1] : List Nat).Perm (List.range 4)) ∧
    (∃ g2 k, remove_arc_conn ⟨2, [(0, 1), (1, 0), (0, 1), (1, 0)]⟩ [2, 0, 3, 1]
        = some (g2, k) ∧
      stronglyConnected g2 = true ∧
      g2.edges.length + 1 = 4 ∧
      1 ≤ k ∧ k ≤ 4 ∧
      stronglyConnected
        ((⟨2, [(0, 1), (1, 0), (0, 1), (1, 0)]⟩ : Graph).deleteEdge
          (([2, 0, 3, 1] : List Nat).getD (k - 1) 0)) = true ∧
      ∀ jj, jj + 1 < k →
        stronglyConnected
          ((⟨2, [(0, 1), (1, 0), (0, 1), (1, 0)]⟩ : Graph).deleteEdge
            (([2, 0, 3, 1] : List Nat).getD jj 0)) = false) :=
  ⟨by decide, by decide, by decide, by decide, by decide, by decide,
    remove_arc_conn_spec ⟨2, [(0, 1), (1, 0), (0, 1), (1, 0)]⟩ [0, 1] [2, 3]
      [2, 0, 3, 1] (by decide) (by decide) (by decide) (by decide)
      (by decide) (by decide)⟩

lemma getD_range {m p : Nat} (hp : p < m) : (List.range m).getD p 0 = p := by
  rw [List.getD_eq_getElem _ _ (by simpa using hp)]
  simp

/-- Deleting any edge of a single spanning cycle (its edge list being the
cycle in order) leaves the edge's source with no outgoing edge, so the graph
is no longer strongly connected. -/
lemma singleCycle_del_not_sc (g : Graph) (hwf : g.wf) (hn : 2 ≤ g.n)
    (hc : isHamCycle g (List.range g.edges.length)) (e : Nat)
    (he : e < g.edges.length) :
    stronglyConnected (g.deleteEdge e) = false := by
  have hinj := List.inj_on_of_nodup_map hc.2.2.2.1
  have hmlen : (List.range g.edges.length).length = g.edges.length :=
    List.length_range _
  have hnoout : ∀ f ∈ (g.deleteEdge e).edges, f.1 ≠ (edgeAt g e).1 := by
    intro f hf hfu
    have hf2 : f ∈ g.edges.eraseIdx e := hf
    obtain ⟨j, hj, hjne, hjeq⟩ := List.mem_eraseIdx_iff_getElem.mp hf2
    have hjsrc : (edgeAt g j).1 = (edgeAt g e).1 := by
      rw [edgeAt, List.getD_eq_getElem _ _ hj, hjeq]
      exact hfu
    have := hinj (List.mem_range.mpr hj) (List.mem_range.mpr he) hjsrc
    exact hjne this
  have hvu : (edgeAt g e).2 ≠ (edgeAt g e).1 := by
    intro hveq
    have hp : e < (List.range g.edges.length).length := by omega
    have hchain := hc.2.2.1 e hp
    rw [hmlen, getD_range he] at hchain
    have hplt : (e + 1) % g.edges.length < g.edges.length :=
      Nat.mod_lt _ (by omega)
    rw [getD_range hplt] at hchain
    have hsame : (edgeAt g ((e + 1) % g.edges.length)).1 = (edgeAt g e).1 := by
      rw [← hchain, hveq]
    have heq := hinj (List.mem_range.mpr hplt) (List.mem_range.mpr he) hsame
    by_cases hem : e + 1 < g.edges.length
    · rw [Nat.mod_eq_of_lt hem] at heq
      omega
    · have hm : e + 1 = g.edges.length := by omega
      rw [hm, Nat.mod_self] at heq
      have hm1 : g.edges.length = 1 := by omega
      have := hamCycle_n_le hc
      rw [hmlen, hm1] at this
      omega
  have hue : edgeAt g e ∈ g.edges := hamCycle_edge_mem he
  have hun : (edgeAt g e).1 < g.n := (hwf _ hue).1
  have hvn : (edgeAt g e).2 < g.n := (hwf _ hue).2
  rw [stronglyConnected]
  apply decide_eq_false
  intro hall
  have hreach := hall (edgeAt g e).1 (List.mem_range.mpr hun)
    (edgeAt g e).2 (List.mem_range.mpr hvn)
  rw [reachableFrom, reachIter_no_out _ _ hnoout] at hreach
  rw [List.mem_singleton] at hreach
  exact hvu hreach

lemma removeArcGo_none (g : Graph) :
    ∀ (order : List Nat) (k : Nat),
      (∀ e ∈ order, stronglyConnected (g.deleteEdge e) = false) →
      removeArcGo g order k = none := by
  intro order
  induction order with
  | nil => intro k _; rfl
  | cons a l ih =>
      intro k h
      rw [removeArcGo]
      simp only [h a (List.mem_cons_self a l), Bool.false_eq_true, if_false]
      exact ih (k + 1) (fun e he => h e (List.mem_cons_of_mem a he))

/-- C4: on a graph that is a single directed cycle through all of its (at
least two) vertices, every edge removal breaks strong connectivity, so
`remove_arc_conn` exhausts every shuffle order and raises. -/
theorem remove_arc_conn_cycle_fails (g : Graph) (order : List Nat)
    (hwf : g.wf) (hn : 2 ≤ g.n)
    (hc : isHamCycle g (List.range g.edges.length))
    (horder : order.Perm (List.range g.edges.length)) :
    remove_arc_conn g order = none := by
  rw [remove_arc_conn]
  refine removeArcGo_none g order 1 (fun e he => ?_)
  have : e ∈ List.range g.edges.length := horder.subset he
  exact singleCycle_del_not_sc g hwf hn hc e (by simpa using this)

/-- Closed instance of `remove_arc_conn_cycle_fails` on the directed 2-cycle
with the shuffled order `[1, 0]`. -/
theorem remove_arc_conn_cycle_fails_witness :
    (Graph.wf ⟨2, [(0, 1), (1, 0)]⟩) ∧ ((2 : Nat) ≤ 2) ∧
    isHamCycle ⟨2, [(0, 1), (1, 0)]⟩ (List.range 2) ∧
    (([1, 0] : List Nat).Perm (List.range 2)) ∧
    remove_arc_conn ⟨2, [(0, 1), (1, 0)]⟩ [1, 0] = none :=
  ⟨by decide, by decide, by decide, by decide,
    remove_arc_conn_cycle_fails ⟨2, [(0, 1), (1, 0)]⟩ [1, 0]
      (by decide) (by decide) (by decide) (by decide)⟩
